import Mathlib

set_option maxRecDepth 40000

/-!
# Closed-island counting: a shallow embedding of `Solution::closedIsland`

This file embeds the single routine of the repository
(`src/corpus/Assignment1/main.cpp`) in Lean 4 and proves the specified
properties about it.

The C++ routine receives `vector<vector<int>>& grid`, allocates a
`visited` marker of the same shape, flood-fills (recursive `dfs` lambda)
from every border land cell, then counts flood fills started from
unvisited interior land cells.

Embedding choices:
* the grid is a `List (List Nat)`; `rows`/`cols` mirror `grid.size()`
  and `grid[0].size()`;
* indices are `Int`, as in the C++ (`int i, j`), so `i - 1` can be `-1`
  and is rejected by the same bounds guard as in the source;
* the `visited` marker is the finite set of marked coordinates
  (`visited[i][j] == 1` corresponds to `(i, j) ∈ visited`);
* the recursive `dfs` lambda is translated with an explicit fuel
  argument; `closedIsland` runs it with fuel `rows * cols + 1`, and the
  fuel-adequacy theorem below shows any fuel at least that large gives
  the same answer (this is the termination argument of the C++
  recursion);
* the C++ captures `grid` by reference but never writes to it; a
  state-threaded variant (`St`, `dfsS`, …) carries the grid through the
  whole computation so that the frame property "the input grid is never
  modified" is an actual theorem rather than a modelling assumption.
-/

namespace ClosedIsland

/-- A grid position, `(row, column)`, with `Int` coordinates as in the
C++ source (`int i, j`). -/
abbrev Pos : Type := Int × Int

/-- The grid type: `vector<vector<int>>` with 0/1 entries. -/
abbrev Grid : Type := List (List Nat)

/-- `int n = grid.size();` -/
def rows (g : Grid) : Nat := g.length

/-- `int m = grid[0].size();` -/
def cols (g : Grid) : Nat := (g.headD []).length

/-- Reading `grid[i][j]` at `Int` coordinates.  The source only reads
in-bounds cells (the `dfs` guard rejects out-of-bounds indices before
the read), so the default value `1` outside the grid is never relevant
to guarded reads. -/
def cellZ (g : Grid) (i j : Int) : Nat := ((g.getD i.toNat []).getD j.toNat 1)

/-- The state of one invocation: the grid captured by reference by the
`dfs` lambda, and the `visited` marker it mutates. -/
structure St where
  grid : Grid
  visited : Finset Pos
deriving DecidableEq

/-- The `dfs` guard:
`i < 0 || j < 0 || i >= n || j >= m || grid[i][j] == 1 || visited[i][j]`. -/
def stop (g : Grid) (i j : Int) (v : Finset Pos) : Prop :=
  i < 0 ∨ j < 0 ∨ (rows g : Int) ≤ i ∨ (cols g : Int) ≤ j ∨
    cellZ g i j = 1 ∨ (i, j) ∈ v

instance (g : Grid) (i j : Int) (v : Finset Pos) : Decidable (stop g i j v) := by
  unfold stop; infer_instance

/-- The recursive `dfs` lambda, state-threaded, with explicit fuel:

```cpp
auto dfs = [&](int i, int j, auto&& dfs_ref) -> void {
    if (i < 0 || j < 0 || i >= n || j >= m || grid[i][j] == 1 || visited[i][j])
        return;
    visited[i][j] = 1;
    dfs_ref(i+1, j, dfs_ref);
    dfs_ref(i-1, j, dfs_ref);
    dfs_ref(i, j+1, dfs_ref);
    dfs_ref(i, j-1, dfs_ref);
};
``` -/
def dfsS : Nat → Int → Int → St → St
  | 0, _, _, st => st
  | fuel + 1, i, j, st =>
    if stop st.grid i j st.visited then
      st
    else
      dfsS fuel i (j-1) (dfsS fuel i (j+1) (dfsS fuel (i-1) j (dfsS fuel (i+1) j
        { st with visited := insert (i, j) st.visited })))

/-- One border-seed step:
`if (grid[i][0] == 0 && !visited[i][0]) dfs(i, 0, dfs);` and its three
siblings all have this shape. -/
def seedS (fuel : Nat) (st : St) (p : Pos) : St :=
  if cellZ st.grid p.1 p.2 = 0 ∧ p ∉ st.visited then dfsS fuel p.1 p.2 st else st

/-- Step 1, first loop: `for (int i = 0; i < n; i++) { ... }` seeding
`(i, 0)` and `(i, m-1)`. -/
def borderRowsS (fuel : Nat) (st : St) : St :=
  (List.range (rows st.grid)).foldl
    (fun (st' : St) (i : Nat) => seedS fuel (seedS fuel st' ((i : Int), 0))
      ((i : Int), (cols st.grid : Int) - 1)) st

/-- Step 1, second loop: `for (int j = 0; j < m; j++) { ... }` seeding
`(0, j)` and `(n-1, j)`. -/
def borderColsS (fuel : Nat) (st : St) : St :=
  (List.range (cols st.grid)).foldl
    (fun (st' : St) (j : Nat) => seedS fuel (seedS fuel st' (0, (j : Int)))
      ((rows st.grid : Int) - 1, (j : Int))) st

/-- One interior-counting step:
`if (grid[i][j] == 0 && !visited[i][j]) { dfs(i, j, dfs); count++; }`. -/
def countStepS (fuel : Nat) (sc : St × Nat) (p : Pos) : St × Nat :=
  if cellZ sc.1.grid p.1 p.2 = 0 ∧ p ∉ sc.1.visited then
    (dfsS fuel p.1 p.2 sc.1, sc.2 + 1)
  else sc

/-- Step 2: the nested counting loops
`for (int i = 1; i < n-1; i++) for (int j = 1; j < m-1; j++) { ... }`. -/
def countPassS (fuel : Nat) (st : St) : St × Nat :=
  (List.range' 1 (rows st.grid - 1 - 1)).foldl
    (fun (sc : St × Nat) (i : Nat) => (List.range' 1 (cols st.grid - 1 - 1)).foldl
      (fun (sc' : St × Nat) (j : Nat) => countStepS fuel sc' ((i : Int), (j : Int))) sc)
    (st, 0)

/-- The whole routine, fuel-parametric: border pass then counting pass,
starting from an all-clear `visited` marker. -/
def closedIslandRunFuel (g : Grid) (fuel : Nat) : St × Nat :=
  countPassS fuel (borderColsS fuel (borderRowsS fuel { grid := g, visited := ∅ }))

/-- `Solution::closedIsland`, state and count.  The fuel
`rows g * cols g + 1` exceeds the number of grid cells, which (as proved
below) is enough for every flood fill to run to completion. -/
def closedIslandRun (g : Grid) : St × Nat :=
  closedIslandRunFuel g (rows g * cols g + 1)

/-- `Solution::closedIsland`: the returned count. -/
def closedIsland (g : Grid) : Nat := (closedIslandRun g).2

/-- The returned count at an arbitrary fuel (used to state fuel
adequacy, i.e. termination of the C++ recursion). -/
def closedIslandFuel (g : Grid) (fuel : Nat) : Nat := (closedIslandRunFuel g fuel).2

/-! ## Validity of the input grid (the spec's input constraints) -/

/-- The spec's input constraints: `n ≥ 1`, all rows of length `m ≥ 1`,
every cell valued 0 or 1. -/
def Valid (g : Grid) : Prop :=
  1 ≤ rows g ∧ 1 ≤ cols g ∧ (∀ row ∈ g, row.length = cols g) ∧
    ∀ row ∈ g, ∀ c ∈ row, c = 0 ∨ c = 1

instance (g : Grid) : Decidable (Valid g) := by unfold Valid; infer_instance

/-! ## The mathematical specification side

These definitions follow the specification's words: land cells,
4-directional adjacency, paths through land, border, closed islands. -/

/-- The in-bounds coordinate box of the grid. -/
def box (g : Grid) : Finset Pos :=
  Finset.Ico (0 : Int) (rows g : Int) ×ˢ Finset.Ico (0 : Int) (cols g : Int)

/-- Cells the `dfs` guard lets through: in bounds with value ≠ 1.  On a
valid grid this coincides with `landCells`. -/
def liveCells (g : Grid) : Finset Pos :=
  (box g).filter (fun p => ¬ cellZ g p.1 p.2 = 1)

/-- Land cells in the spec's sense: in bounds with value 0. -/
def landCells (g : Grid) : Finset Pos :=
  (box g).filter (fun p => cellZ g p.1 p.2 = 0)

/-- 4-directional adjacency of positions. -/
def adjP (p q : Pos) : Prop :=
  (p.1 = q.1 ∧ (q.2 = p.2 + 1 ∨ p.2 = q.2 + 1)) ∨
    (p.2 = q.2 ∧ (q.1 = p.1 + 1 ∨ p.1 = q.1 + 1))

instance (p q : Pos) : Decidable (adjP p q) := by unfold adjP; infer_instance

/-- Reachability inside a set `S` of allowed cells: a path of
4-directional steps all of whose targets lie in `S`. -/
def ReachIn (S : Finset Pos) (p q : Pos) : Prop :=
  Relation.ReflTransGen (fun a b => adjP a b ∧ b ∈ S) p q

/-- One saturation step of the reachable-set computation: add every
`S`-cell adjacent to the current set. -/
def grow (S X : Finset Pos) : Finset Pos :=
  X ∪ S.filter (fun b => ∃ a ∈ X, adjP a b)

/-- The set of cells reachable from `p` inside `S`, by iterating
`grow` to its fixed point. -/
def reachClosure (S : Finset Pos) (p : Pos) : Finset Pos :=
  (grow S)^[S.card + 1] {p}

/-- Border positions: row 0, row `n-1`, column 0 or column `m-1` (in
bounds). -/
def BorderPos (g : Grid) (p : Pos) : Prop :=
  p ∈ box g ∧ (p.1 = 0 ∨ p.1 = (rows g : Int) - 1 ∨ p.2 = 0 ∨ p.2 = (cols g : Int) - 1)

instance (g : Grid) (p : Pos) : Decidable (BorderPos g p) := by
  unfold BorderPos; infer_instance

/-! ## Basic lemmas about the embedding -/

theorem mem_box {g : Grid} {p : Pos} :
    p ∈ box g ↔ 0 ≤ p.1 ∧ p.1 < (rows g : Int) ∧ 0 ≤ p.2 ∧ p.2 < (cols g : Int) := by
  cases p with
  | mk a b => simp [box, Finset.mem_product, Finset.mem_Ico, and_assoc]

theorem mem_liveCells {g : Grid} {p : Pos} :
    p ∈ liveCells g ↔ p ∈ box g ∧ cellZ g p.1 p.2 ≠ 1 := by
  simp [liveCells]

theorem mem_landCells {g : Grid} {p : Pos} :
    p ∈ landCells g ↔ p ∈ box g ∧ cellZ g p.1 p.2 = 0 := by
  simp [landCells]

theorem card_box (g : Grid) : (box g).card = rows g * cols g := by
  simp [box, Int.toNat_ofNat]

theorem liveCells_card_le (g : Grid) : (liveCells g).card ≤ rows g * cols g := by
  calc (liveCells g).card ≤ (box g).card := Finset.card_le_card (Finset.filter_subset _ _)
    _ = rows g * cols g := card_box g

theorem not_stop_iff {g : Grid} {i j : Int} {v : Finset Pos} :
    ¬ stop g i j v ↔ (i, j) ∈ liveCells g ∧ (i, j) ∉ v := by
  rw [stop, mem_liveCells, mem_box]
  push_neg
  constructor
  · rintro ⟨h1, h2, h3, h4, h5, h6⟩
    exact ⟨⟨⟨h1, h3, h2, h4⟩, h5⟩, h6⟩
  · rintro ⟨⟨⟨h1, h3, h2, h4⟩, h5⟩, h6⟩
    exact ⟨h1, h2, h3, h4, h5, h6⟩

/-! ## The grid component is never written -/

theorem dfsS_grid : ∀ (fuel : Nat) (i j : Int) (st : St),
    (dfsS fuel i j st).grid = st.grid := by
  intro fuel
  induction fuel with
  | zero => intro i j st; rfl
  | succ f ih =>
    intro i j st
    rw [dfsS]
    split
    · rfl
    · rw [ih, ih, ih, ih]

/-- The pure view of `dfsS`: the final `visited` marker, the grid being
a read-only parameter. -/
def dfsV (g : Grid) (fuel : Nat) (i j : Int) (v : Finset Pos) : Finset Pos :=
  (dfsS fuel i j ⟨g, v⟩).visited

theorem dfsS_mk (g : Grid) (fuel : Nat) (i j : Int) (v : Finset Pos) :
    dfsS fuel i j ⟨g, v⟩ = ⟨g, dfsV g fuel i j v⟩ := by
  have hg := dfsS_grid fuel i j ⟨g, v⟩
  cases e : dfsS fuel i j ⟨g, v⟩ with
  | mk gr vis =>
    rw [e] at hg
    simp only at hg
    subst hg
    simp [dfsV, e]

theorem dfsV_zero (g : Grid) (i j : Int) (v : Finset Pos) : dfsV g 0 i j v = v := rfl

theorem dfsV_succ (g : Grid) (fuel : Nat) (i j : Int) (v : Finset Pos) :
    dfsV g (fuel + 1) i j v =
      if stop g i j v then v
      else dfsV g fuel i (j-1) (dfsV g fuel i (j+1) (dfsV g fuel (i-1) j
        (dfsV g fuel (i+1) j (insert (i, j) v)))) := by
  show (dfsS (fuel + 1) i j ⟨g, v⟩).visited = _
  rw [dfsS]
  split
  · rfl
  · simp only [dfsS_mk]

theorem dfsV_stop {g : Grid} {i j : Int} {v : Finset Pos} (h : stop g i j v) :
    ∀ fuel, dfsV g fuel i j v = v := by
  intro fuel
  cases fuel with
  | zero => rfl
  | succ f => rw [dfsV_succ, if_pos h]

/-! ## Monotonicity and range of the flood fill -/

theorem subset_dfsV (g : Grid) : ∀ (fuel : Nat) (i j : Int) (v : Finset Pos),
    v ⊆ dfsV g fuel i j v := by
  intro fuel
  induction fuel with
  | zero => intro i j v; rw [dfsV_zero]
  | succ f ih =>
    intro i j v
    rw [dfsV_succ]
    split
    · exact Finset.Subset.refl v
    · calc v ⊆ insert (i, j) v := Finset.subset_insert _ _
        _ ⊆ _ := (((ih _ _ _).trans (ih _ _ _)).trans (ih _ _ _)).trans (ih _ _ _)

theorem dfsV_subset (g : Grid) : ∀ (fuel : Nat) (i j : Int) (v : Finset Pos),
    dfsV g fuel i j v ⊆ v ∪ liveCells g := by
  intro fuel
  induction fuel with
  | zero => intro i j v; rw [dfsV_zero]; exact Finset.subset_union_left
  | succ f ih =>
    intro i j v
    rw [dfsV_succ]
    split
    · exact Finset.subset_union_left
    · rename_i h
      have hlive : (i, j) ∈ liveCells g := (not_stop_iff.mp h).1
      have hins : insert (i, j) v ∪ liveCells g = v ∪ liveCells g := by
        rw [Finset.insert_union, Finset.insert_eq_self.mpr (Finset.mem_union_right _ hlive)]
      calc dfsV g f i (j-1) (dfsV g f i (j+1) (dfsV g f (i-1) j
              (dfsV g f (i+1) j (insert (i, j) v))))
          ⊆ dfsV g f i (j+1) (dfsV g f (i-1) j (dfsV g f (i+1) j (insert (i, j) v)))
            ∪ liveCells g := ih _ _ _
        _ ⊆ (dfsV g f (i-1) j (dfsV g f (i+1) j (insert (i, j) v)) ∪ liveCells g)
            ∪ liveCells g := Finset.union_subset_union_left (ih _ _ _)
        _ = dfsV g f (i-1) j (dfsV g f (i+1) j (insert (i, j) v)) ∪ liveCells g := by
            rw [Finset.union_assoc, Finset.union_self]
        _ ⊆ (dfsV g f (i+1) j (insert (i, j) v) ∪ liveCells g) ∪ liveCells g :=
            Finset.union_subset_union_left (ih _ _ _)
        _ = dfsV g f (i+1) j (insert (i, j) v) ∪ liveCells g := by
            rw [Finset.union_assoc, Finset.union_self]
        _ ⊆ (insert (i, j) v ∪ liveCells g) ∪ liveCells g :=
            Finset.union_subset_union_left (ih _ _ _)
        _ = insert (i, j) v ∪ liveCells g := by rw [Finset.union_assoc, Finset.union_self]
        _ = v ∪ liveCells g := hins

/-! ## Adjacency and reachability basics -/

theorem adjP_up (i j : Int) : adjP (i, j) (i + 1, j) := Or.inr ⟨rfl, Or.inl rfl⟩

theorem adjP_down (i j : Int) : adjP (i, j) (i - 1, j) := Or.inr ⟨rfl, Or.inr (by omega)⟩

theorem adjP_right (i j : Int) : adjP (i, j) (i, j + 1) := Or.inl ⟨rfl, Or.inl rfl⟩

theorem adjP_left (i j : Int) : adjP (i, j) (i, j - 1) := Or.inl ⟨rfl, Or.inr (by omega)⟩

theorem adjP_elim {i j : Int} {b : Pos} (h : adjP (i, j) b) :
    b = (i + 1, j) ∨ b = (i - 1, j) ∨ b = (i, j + 1) ∨ b = (i, j - 1) := by
  rcases b with ⟨x, y⟩
  simp only [adjP, Prod.mk.injEq] at h ⊢
  omega

theorem adjP_symm {p q : Pos} (h : adjP p q) : adjP q p := by
  rcases p with ⟨a, b⟩; rcases q with ⟨x, y⟩
  simp only [adjP] at h ⊢
  omega

theorem reachIn_mono {S T : Finset Pos} (hST : S ⊆ T) {p q : Pos}
    (h : ReachIn S p q) : ReachIn T p q :=
  Relation.ReflTransGen.mono (fun _ _ hab => ⟨hab.1, hST hab.2⟩) h

theorem reachIn_mem {S : Finset Pos} {p q : Pos} (h : ReachIn S p q) :
    q = p ∨ q ∈ S := by
  induction h with
  | refl => exact Or.inl rfl
  | tail _ hstep _ => exact Or.inr hstep.2

theorem reachIn_symm {S : Finset Pos} {p q : Pos} (hp : p ∈ S)
    (h : ReachIn S p q) : q ∈ S ∧ ReachIn S q p := by
  induction h with
  | refl => exact ⟨hp, Relation.ReflTransGen.refl⟩
  | tail _ hstep ih =>
    exact ⟨hstep.2, Relation.ReflTransGen.head ⟨adjP_symm hstep.1, ih.1⟩ ih.2⟩

/-! ## Fuel adequacy of the flood fill -/

theorem dfsV_fuel_succ (g : Grid) : ∀ (fuel : Nat) (i j : Int) (v : Finset Pos),
    (liveCells g \ v).card < fuel → dfsV g fuel i j v = dfsV g (fuel + 1) i j v := by
  intro fuel
  induction fuel with
  | zero => intro i j v h; omega
  | succ f ih =>
    intro i j v h
    rw [dfsV_succ, dfsV_succ g (f + 1)]
    split
    · rfl
    · rename_i hns
      have hmem : (i, j) ∈ liveCells g \ v := by
        rw [Finset.mem_sdiff]
        exact ⟨(not_stop_iff.mp hns).1, (not_stop_iff.mp hns).2⟩
      have hc1 : (liveCells g \ insert (i, j) v).card < f := by
        rw [Finset.sdiff_insert, Finset.card_erase_of_mem hmem]
        have : 1 ≤ (liveCells g \ v).card := Finset.card_pos.mpr ⟨_, hmem⟩
        omega
      have step : ∀ (a b : Int) (w : Finset Pos), insert (i, j) v ⊆ w →
          dfsV g f a b w = dfsV g (f + 1) a b w := by
        intro a b w hw
        refine ih a b w ?_
        have : liveCells g \ w ⊆ liveCells g \ insert (i, j) v :=
          Finset.sdiff_subset_sdiff (Finset.Subset.refl _) hw
        exact lt_of_le_of_lt (Finset.card_le_card this) hc1
      have s0 : insert (i, j) v ⊆ insert (i, j) v := Finset.Subset.refl _
      have e1 := step (i+1) j (insert (i, j) v) s0
      have s1 : insert (i, j) v ⊆ dfsV g f (i+1) j (insert (i, j) v) :=
        subset_dfsV g f _ _ _
      have e2 := step (i-1) j _ s1
      have s2 : insert (i, j) v ⊆ dfsV g f (i-1) j (dfsV g f (i+1) j (insert (i, j) v)) :=
        s1.trans (subset_dfsV g f _ _ _)
      have e3 := step i (j+1) _ s2
      have s3 : insert (i, j) v ⊆ dfsV g f i (j+1) (dfsV g f (i-1) j
          (dfsV g f (i+1) j (insert (i, j) v))) :=
        s2.trans (subset_dfsV g f _ _ _)
      have e4 := step i (j-1) _ s3
      rw [← e1, ← e2, ← e3, ← e4]

theorem dfsV_fuel_ge (g : Grid) {fuel fuel' : Nat} (i j : Int) (v : Finset Pos)
    (h : (liveCells g \ v).card < fuel) (hle : fuel ≤ fuel') :
    dfsV g fuel i j v = dfsV g fuel' i j v := by
  obtain ⟨k, rfl⟩ := Nat.exists_eq_add_of_le hle
  clear hle
  induction k with
  | zero => rfl
  | succ k ih =>
    rw [ih, show fuel + (k + 1) = (fuel + k) + 1 by omega]
    exact dfsV_fuel_succ g (fuel + k) i j v (by omega)

/-! ## Soundness: the flood fill only marks cells reachable from the seed -/

theorem dfsV_sound (g : Grid) : ∀ (fuel : Nat) (i j : Int) (v : Finset Pos),
    ∀ q ∈ dfsV g fuel i j v,
      q ∈ v ∨ (¬ stop g i j v ∧ ReachIn (liveCells g \ v) (i, j) q) := by
  intro fuel
  induction fuel with
  | zero => intro i j v q hq; exact Or.inl hq
  | succ f ih =>
    intro i j v q hq
    rw [dfsV_succ] at hq
    by_cases hst : stop g i j v
    · rw [if_pos hst] at hq; exact Or.inl hq
    · rw [if_neg hst] at hq
      have key : ∀ (a b : Int) (w : Finset Pos), adjP (i, j) (a, b) → v ⊆ w →
          (∀ r ∈ w, r ∈ v ∨ ReachIn (liveCells g \ v) (i, j) r) →
          ∀ r ∈ dfsV g f a b w, r ∈ v ∨ ReachIn (liveCells g \ v) (i, j) r := by
        intro a b w hadj hvw hW r hr
        rcases ih a b w r hr with hrw | ⟨hns, hreach⟩
        · exact hW r hrw
        · obtain ⟨hlive, hnotw⟩ := not_stop_iff.mp hns
          have hnv : (a, b) ∉ v := fun hx => hnotw (hvw hx)
          have h1 : ReachIn (liveCells g \ v) (i, j) (a, b) :=
            Relation.ReflTransGen.single ⟨hadj, Finset.mem_sdiff.mpr ⟨hlive, hnv⟩⟩
          refine Or.inr (Relation.ReflTransGen.trans h1 ?_)
          exact reachIn_mono (Finset.sdiff_subset_sdiff (Finset.Subset.refl _) hvw) hreach
      have h0 : ∀ r ∈ insert (i, j) v, r ∈ v ∨ ReachIn (liveCells g \ v) (i, j) r := by
        intro r hr
        rcases Finset.mem_insert.mp hr with rfl | hr
        · exact Or.inr Relation.ReflTransGen.refl
        · exact Or.inl hr
      have s0 : v ⊆ insert (i, j) v := Finset.subset_insert _ _
      have h1 := key (i+1) j (insert (i, j) v) (adjP_up i j) s0 h0
      have s1 : v ⊆ dfsV g f (i+1) j (insert (i, j) v) := s0.trans (subset_dfsV g f _ _ _)
      have h2 := key (i-1) j _ (adjP_down i j) s1 h1
      have s2 : v ⊆ dfsV g f (i-1) j (dfsV g f (i+1) j (insert (i, j) v)) :=
        s1.trans (subset_dfsV g f _ _ _)
      have h3 := key i (j+1) _ (adjP_right i j) s2 h2
      have s3 : v ⊆ dfsV g f i (j+1) (dfsV g f (i-1) j
          (dfsV g f (i+1) j (insert (i, j) v))) := s2.trans (subset_dfsV g f _ _ _)
      have h4 := key i (j-1) _ (adjP_left i j) s3 h3
      rcases h4 q hq with hl | hr
      · exact Or.inl hl
      · exact Or.inr ⟨hst, hr⟩

theorem mem_dfsV_self {g : Grid} {fuel : Nat} {i j : Int} {v : Finset Pos}
    (hns : ¬ stop g i j v) (hf : 0 < fuel) : (i, j) ∈ dfsV g fuel i j v := by
  cases fuel with
  | zero => omega
  | succ f =>
    rw [dfsV_succ, if_neg hns]
    exact subset_dfsV g f _ _ _ (subset_dfsV g f _ _ _ (subset_dfsV g f _ _ _
      (subset_dfsV g f _ _ _ (Finset.mem_insert_self (i, j) v))))

theorem mem_dfsV_of_live {g : Grid} {fuel : Nat} {i j : Int} {w : Finset Pos}
    (hb : (i, j) ∈ liveCells g) (hf : (liveCells g \ w).card < fuel) :
    (i, j) ∈ dfsV g fuel i j w := by
  by_cases hw : (i, j) ∈ w
  · exact subset_dfsV g fuel i j w hw
  · have hns : ¬ stop g i j w := not_stop_iff.mpr ⟨hb, hw⟩
    have hpos : 0 < fuel := by
      have : (i, j) ∈ liveCells g \ w := Finset.mem_sdiff.mpr ⟨hb, hw⟩
      have := Finset.card_pos.mpr ⟨_, this⟩
      omega
    exact mem_dfsV_self hns hpos

/-! ## Saturation: the flood fill never abandons a live neighbour -/

theorem dfsV_sat (g : Grid) : ∀ (fuel : Nat) (i j : Int) (v : Finset Pos),
    (liveCells g \ v).card < fuel →
    ∀ a ∈ dfsV g fuel i j v, a ∉ v →
    ∀ b : Pos, adjP a b → b ∈ liveCells g → b ∈ dfsV g fuel i j v := by
  intro fuel
  induction fuel with
  | zero => intro i j v h; omega
  | succ f ih =>
    intro i j v hf a ha hav b hadj hblive
    rw [dfsV_succ] at ha ⊢
    by_cases hst : stop g i j v
    · rw [if_pos hst] at ha ⊢; exact absurd ha hav
    · rw [if_neg hst] at ha ⊢
      have hmem : (i, j) ∈ liveCells g \ v := by
        rw [Finset.mem_sdiff]
        exact ⟨(not_stop_iff.mp hst).1, (not_stop_iff.mp hst).2⟩
      have hcv : 1 ≤ (liveCells g \ v).card := Finset.card_pos.mpr ⟨_, hmem⟩
      have hc0 : (liveCells g \ insert (i, j) v).card < f := by
        rw [Finset.sdiff_insert, Finset.card_erase_of_mem hmem]
        omega
      have cardw : ∀ w : Finset Pos, insert (i, j) v ⊆ w →
          (liveCells g \ w).card < f := fun w hw =>
        lt_of_le_of_lt (Finset.card_le_card
          (Finset.sdiff_subset_sdiff (Finset.Subset.refl _) hw)) hc0
      -- the four accumulated marker sets
      set v1 := insert (i, j) v with hv1
      set w1 := dfsV g f (i+1) j v1 with hw1
      set w2 := dfsV g f (i-1) j w1 with hw2
      set w3 := dfsV g f i (j+1) w2 with hw3
      set w4 := dfsV g f i (j-1) w3 with hw4
      have s01 : v1 ⊆ w1 := subset_dfsV g f _ _ _
      have s12 : w1 ⊆ w2 := subset_dfsV g f _ _ _
      have s23 : w2 ⊆ w3 := subset_dfsV g f _ _ _
      have s34 : w3 ⊆ w4 := subset_dfsV g f _ _ _
      have c1 : (liveCells g \ v1).card < f := cardw v1 (Finset.Subset.refl _)
      have c2 : (liveCells g \ w1).card < f := cardw w1 s01
      have c3 : (liveCells g \ w2).card < f := cardw w2 (s01.trans s12)
      have c4 : (liveCells g \ w3).card < f := cardw w3 ((s01.trans s12).trans s23)
      by_cases ha1 : a ∈ v1
      · -- the seed itself: each of its four live neighbours is the seed of
        -- one of the four recursive calls, hence marked there
        have haij : a = (i, j) := by
          rcases Finset.mem_insert.mp ha1 with h | h
          · exact h
          · exact absurd h hav
        subst haij
        rcases adjP_elim hadj with rfl | rfl | rfl | rfl
        · exact s34 (s23 (s12 (mem_dfsV_of_live hblive c1)))
        · exact s34 (s23 (mem_dfsV_of_live hblive c2))
        · exact s34 (mem_dfsV_of_live hblive c3)
        · exact mem_dfsV_of_live hblive c4
      · by_cases hb1 : a ∈ w1
        · exact s34 (s23 (s12 (ih (i+1) j v1 c1 a hb1 ha1 b hadj hblive)))
        · by_cases hb2 : a ∈ w2
          · exact s34 (s23 (ih (i-1) j w1 c2 a hb2 hb1 b hadj hblive))
          · by_cases hb3 : a ∈ w3
            · exact s34 (ih i (j+1) w2 c3 a hb3 hb2 b hadj hblive)
            · exact ih i (j-1) w3 c4 a ha hb3 b hadj hblive

/-! ## Completeness and the exact membership description of the fill -/

theorem dfsV_complete {g : Grid} {fuel : Nat} {i j : Int} {v : Finset Pos}
    (hf : (liveCells g \ v).card < fuel) (hns : ¬ stop g i j v) :
    ∀ q : Pos, ReachIn (liveCells g \ v) (i, j) q →
      q ∈ dfsV g fuel i j v ∧ q ∉ v := by
  intro q hq
  induction hq with
  | refl =>
    refine ⟨mem_dfsV_self hns (by omega), (not_stop_iff.mp hns).2⟩
  | tail _ hstep ih =>
    rename_i b c hpath
    obtain ⟨hadj, hc⟩ := hstep
    obtain ⟨hclive, hcv⟩ := Finset.mem_sdiff.mp hc
    exact ⟨dfsV_sat g fuel i j v hf b ih.1 ih.2 c hadj hclive, hcv⟩

theorem mem_dfsV_iff {g : Grid} {fuel : Nat} {i j : Int} {v : Finset Pos}
    (hf : (liveCells g \ v).card < fuel) (hns : ¬ stop g i j v) (q : Pos) :
    q ∈ dfsV g fuel i j v ↔ q ∈ v ∨ ReachIn (liveCells g \ v) (i, j) q := by
  constructor
  · intro hq
    rcases dfsV_sound g fuel i j v q hq with h | ⟨_, h⟩
    · exact Or.inl h
    · exact Or.inr h
  · rintro (h | h)
    · exact subset_dfsV g fuel i j v h
    · exact (dfsV_complete hf hns q h).1

/-! ## `reachClosure` computes `ReachIn`

Iterating `grow` saturates: each non-stalled step strictly enlarges the
set, which lives inside `insert p S`, so `S.card + 1` iterations reach
the fixed point, and the fixed point is exactly the set of cells
reachable from `p` inside `S`.  This yields a decision procedure for
`ReachIn`. -/

theorem subset_grow (S X : Finset Pos) : X ⊆ grow S X := Finset.subset_union_left

theorem grow_subset {S X : Finset Pos} (hX : X ⊆ insert p S) :
    grow S X ⊆ insert p S := by
  apply Finset.union_subset hX
  exact (Finset.filter_subset _ _).trans (Finset.subset_insert _ _)

theorem iter_grow_subset (S : Finset Pos) (p : Pos) :
    ∀ k, (grow S)^[k] {p} ⊆ insert p S := by
  intro k
  induction k with
  | zero => simp
  | succ n ih =>
    rw [Function.iterate_succ_apply']
    exact grow_subset ih

theorem iter_grow_mono (S : Finset Pos) (p : Pos) {k k' : Nat} (h : k ≤ k') :
    (grow S)^[k] {p} ⊆ (grow S)^[k'] {p} := by
  obtain ⟨d, rfl⟩ := Nat.exists_eq_add_of_le h
  clear h
  induction d with
  | zero => exact Finset.Subset.refl _
  | succ n ih =>
    rw [show k + (n + 1) = (k + n) + 1 by omega, Function.iterate_succ_apply']
    exact ih.trans (subset_grow _ _)

theorem iter_grow_sound (S : Finset Pos) (p : Pos) :
    ∀ k, ∀ q ∈ (grow S)^[k] {p}, ReachIn S p q := by
  intro k
  induction k with
  | zero =>
    intro q hq
    rw [Function.iterate_zero_apply, Finset.mem_singleton] at hq
    exact hq ▸ Relation.ReflTransGen.refl
  | succ n ih =>
    intro q hq
    rw [Function.iterate_succ_apply'] at hq
    rcases Finset.mem_union.mp hq with h | h
    · exact ih q h
    · obtain ⟨hqS, a, haX, hadj⟩ := Finset.mem_filter.mp h
      exact Relation.ReflTransGen.tail (ih a haX) ⟨hadj, hqS⟩

theorem iter_grow_complete (S : Finset Pos) (p q : Pos) (h : ReachIn S p q) :
    ∃ k, q ∈ (grow S)^[k] {p} := by
  induction h with
  | refl => exact ⟨0, by simp⟩
  | tail _ hstep ih =>
    rename_i b c hpath
    obtain ⟨k, hb⟩ := ih
    refine ⟨k + 1, ?_⟩
    rw [Function.iterate_succ_apply']
    apply Finset.mem_union_right
    exact Finset.mem_filter.mpr ⟨hstep.2, b, hb, hstep.1⟩

theorem grow_stall {S X : Finset Pos} (h : grow S X = X) :
    ∀ k, (grow S)^[k] X = X := by
  intro k
  induction k with
  | zero => rfl
  | succ n ih => rw [Function.iterate_succ_apply', ih, h]

theorem iter_grow_stall_from (S : Finset Pos) (p : Pos) {j : Nat}
    (h : (grow S)^[j + 1] {p} = (grow S)^[j] {p}) :
    ∀ k, j ≤ k → (grow S)^[k] {p} = (grow S)^[j] {p} := by
  intro k hk
  obtain ⟨d, rfl⟩ := Nat.exists_eq_add_of_le hk
  rw [Nat.add_comm, Function.iterate_add_apply]
  exact grow_stall (by rw [Function.iterate_succ_apply'] at h; exact h) d

theorem iter_grow_exists_stall (S : Finset Pos) (p : Pos) :
    ∃ j ≤ S.card + 1, (grow S)^[j + 1] {p} = (grow S)^[j] {p} := by
  have aux : ∀ k, (∃ j ≤ k, (grow S)^[j + 1] {p} = (grow S)^[j] {p}) ∨
      k + 1 ≤ ((grow S)^[k] {p}).card := by
    intro k
    induction k with
    | zero => exact Or.inr (by simp)
    | succ n ih =>
      rcases ih with ⟨j, hj, hstall⟩ | hcard
      · exact Or.inl ⟨j, by omega, hstall⟩
      · by_cases he : (grow S)^[n + 1] {p} = (grow S)^[n] {p}
        · exact Or.inl ⟨n, le_refl _ |>.trans (by omega), he⟩
        · refine Or.inr ?_
          have hss : (grow S)^[n] {p} ⊂ (grow S)^[n + 1] {p} :=
            Finset.ssubset_iff_subset_ne.mpr ⟨iter_grow_mono S p (by omega), fun h => he h.symm⟩
          have := Finset.card_lt_card hss
          omega
  rcases aux (S.card + 1) with ⟨j, hj, hstall⟩ | hcard
  · exact ⟨j, hj, hstall⟩
  · exfalso
    have h1 : ((grow S)^[S.card + 1] {p}).card ≤ (insert p S).card :=
      Finset.card_le_card (iter_grow_subset S p _)
    have h2 : (insert p S).card ≤ S.card + 1 := Finset.card_insert_le _ _
    omega

theorem reachClosure_iff (S : Finset Pos) (p q : Pos) :
    q ∈ reachClosure S p ↔ ReachIn S p q := by
  constructor
  · exact fun h => iter_grow_sound S p _ q h
  · intro h
    obtain ⟨k, hk⟩ := iter_grow_complete S p q h
    obtain ⟨j, hj, hstall⟩ := iter_grow_exists_stall S p
    by_cases hkle : k ≤ S.card + 1
    · exact iter_grow_mono S p hkle hk
    · rw [reachClosure, iter_grow_stall_from S p hstall (S.card + 1) hj]
      rw [iter_grow_stall_from S p hstall k (by omega)] at hk
      exact hk

instance (S : Finset Pos) (p q : Pos) : Decidable (ReachIn S p q) :=
  decidable_of_iff (q ∈ reachClosure S p) (reachClosure_iff S p q)

/-! ## The specification's notion of closed islands -/

/-- The region (maximal 4-connected land set) containing `p`: all land
cells reachable from `p` through land. -/
def componentOf (g : Grid) (p : Pos) : Finset Pos :=
  (landCells g).filter (fun q => ReachIn (landCells g) p q)

/-- `p` belongs to a closed island: it is land, and no land cell
reachable from it (itself included) lies on the border. -/
def ClosedCell (g : Grid) (p : Pos) : Prop :=
  p ∈ landCells g ∧ ∀ q ∈ landCells g, ReachIn (landCells g) p q → ¬ BorderPos g q

instance (g : Grid) (p : Pos) : Decidable (ClosedCell g p) := by
  unfold ClosedCell; infer_instance

/-- The number of closed islands in the specification's sense: the
number of distinct regions of closed land cells. -/
def specClosedIslands (g : Grid) : Nat :=
  (((landCells g).filter (fun p => ClosedCell g p)).image (fun p => componentOf g p)).card

/-! ## Saturated marker sets

Every marker set occurring in the two passes is a union of whole
regions: it is contained in the live cells and closed under passing to
live neighbours.  -/

/-- `V` is a union of whole regions of live cells. -/
def Sat (g : Grid) (V : Finset Pos) : Prop :=
  V ⊆ liveCells g ∧ ∀ a ∈ V, ∀ b : Pos, adjP a b → b ∈ liveCells g → b ∈ V

theorem sat_empty (g : Grid) : Sat g ∅ :=
  ⟨Finset.empty_subset _, fun a ha => absurd ha (Finset.not_mem_empty a)⟩

theorem sat_reach_subset {g : Grid} {V : Finset Pos} (hs : Sat g V) {p q : Pos}
    (hp : p ∈ V) (h : ReachIn (liveCells g) p q) : q ∈ V := by
  induction h with
  | refl => exact hp
  | tail _ hstep ih => exact hs.2 _ ih _ hstep.1 hstep.2

theorem sat_reach_avoid {g : Grid} {V : Finset Pos} (hs : Sat g V) {p : Pos}
    (hp : p ∈ liveCells g) (hpv : p ∉ V) (q : Pos) :
    ReachIn (liveCells g \ V) p q ↔ ReachIn (liveCells g) p q := by
  constructor
  · exact reachIn_mono (Finset.sdiff_subset)
  · intro h
    suffices hsuf : q ∉ V ∧ ReachIn (liveCells g \ V) p q from hsuf.2
    induction h with
    | refl => exact ⟨hpv, Relation.ReflTransGen.refl⟩
    | tail hpath hstep ih =>
      rename_i a b
      have halive : a ∈ liveCells g := by
        rcases reachIn_mem hpath with rfl | h
        · exact hp
        · exact h
      have hbV : b ∉ V := by
        intro hbV
        exact ih.1 (hs.2 b hbV a (adjP_symm hstep.1) halive)
      exact ⟨hbV, Relation.ReflTransGen.tail ih.2
        ⟨hstep.1, Finset.mem_sdiff.mpr ⟨hstep.2, hbV⟩⟩⟩

theorem sat_dfsV {g : Grid} {V : Finset Pos} {fuel : Nat} {i j : Int}
    (hf : (liveCells g \ V).card < fuel) (hs : Sat g V) :
    Sat g (dfsV g fuel i j V) := by
  by_cases hst : stop g i j V
  · rw [dfsV_stop hst]; exact hs
  · have hij := not_stop_iff.mp hst
    constructor
    · intro a ha
      rw [mem_dfsV_iff hf hst] at ha
      rcases ha with h | h
      · exact hs.1 h
      · rcases reachIn_mem h with rfl | h
        · exact hij.1
        · exact (Finset.mem_sdiff.mp h).1
    · intro a ha b hadj hblive
      rw [mem_dfsV_iff hf hst] at ha ⊢
      rcases ha with h | h
      · exact Or.inl (hs.2 a h b hadj hblive)
      · by_cases hbV : b ∈ V
        · exact Or.inl hbV
        · exact Or.inr (Relation.ReflTransGen.tail h
            ⟨hadj, Finset.mem_sdiff.mpr ⟨hblive, hbV⟩⟩)

/-! ## Validity: cells are 0/1, so "not water" is "land" -/

theorem valid_cellZ {g : Grid} (hv : Valid g) {i j : Int} (h0 : 0 ≤ i)
    (h1 : i < (rows g : Int)) (h2 : 0 ≤ j) (h3 : j < (cols g : Int)) :
    cellZ g i j = 0 ∨ cellZ g i j = 1 := by
  obtain ⟨hr, hc, hlen, hcell⟩ := hv
  have hi : i.toNat < g.length := by
    have : (rows g : Int) = (g.length : Int) := rfl
    omega
  have hrow_eq : g.getD i.toNat [] = g[i.toNat] := by
    rw [List.getD_eq_getElem?_getD, List.getElem?_eq_getElem hi, Option.getD_some]
  have hrowmem : g.getD i.toNat [] ∈ g := by
    rw [hrow_eq]; exact List.getElem_mem hi
  have hrlen : (g.getD i.toNat []).length = cols g := hlen _ hrowmem
  have hj : j.toNat < (g.getD i.toNat []).length := by
    rw [hrlen]; omega
  have hcell_eq : (g.getD i.toNat []).getD j.toNat 1 = (g.getD i.toNat [])[j.toNat] := by
    rw [List.getD_eq_getElem?_getD, List.getElem?_eq_getElem hj, Option.getD_some]
  have hcellmem : (g.getD i.toNat []).getD j.toNat 1 ∈ g.getD i.toNat [] := by
    rw [hcell_eq]; exact List.getElem_mem hj
  exact hcell _ hrowmem _ hcellmem

theorem liveCells_eq_landCells {g : Grid} (hv : Valid g) :
    liveCells g = landCells g := by
  apply Finset.ext
  intro p
  rw [mem_liveCells, mem_landCells]
  constructor
  · rintro ⟨hbox, hne⟩
    obtain ⟨h0, h1, h2, h3⟩ := mem_box.mp hbox
    rcases valid_cellZ hv h0 h1 h2 h3 with h | h
    · exact ⟨hbox, h⟩
    · exact absurd h hne
  · rintro ⟨hbox, hz⟩
    exact ⟨hbox, by rw [hz]; omega⟩

/-! ## Pure views of the two passes -/

/-- Pure view of `seedS`. -/
def seedV (g : Grid) (fuel : Nat) (v : Finset Pos) (p : Pos) : Finset Pos :=
  if cellZ g p.1 p.2 = 0 ∧ p ∉ v then dfsV g fuel p.1 p.2 v else v

theorem seedS_mk (g : Grid) (fuel : Nat) (v : Finset Pos) (p : Pos) :
    seedS fuel ⟨g, v⟩ p = ⟨g, seedV g fuel v p⟩ := by
  show (if cellZ g p.1 p.2 = 0 ∧ p ∉ v then dfsS fuel p.1 p.2 ⟨g, v⟩ else ⟨g, v⟩) = _
  rw [seedV]
  split
  · rw [dfsS_mk]
  · rfl

/-- Pure view of `countStepS`. -/
def countStepV (g : Grid) (fuel : Nat) (sc : Finset Pos × Nat) (p : Pos) :
    Finset Pos × Nat :=
  if cellZ g p.1 p.2 = 0 ∧ p ∉ sc.1 then (dfsV g fuel p.1 p.2 sc.1, sc.2 + 1) else sc

theorem countStepS_mk (g : Grid) (fuel : Nat) (v : Finset Pos) (c : Nat) (p : Pos) :
    countStepS fuel (⟨g, v⟩, c) p =
      (⟨g, (countStepV g fuel (v, c) p).1⟩, (countStepV g fuel (v, c) p).2) := by
  show (if cellZ g p.1 p.2 = 0 ∧ p ∉ v then ((dfsS fuel p.1 p.2 ⟨g, v⟩ : St), c + 1)
    else ((⟨g, v⟩ : St), c)) = _
  simp only [countStepV]
  split_ifs with h
  · rw [dfsS_mk]
  · rfl

/-- The seed positions of the first border loop. -/
def rowSeeds (g : Grid) : List Pos :=
  (List.range (rows g)).flatMap
    (fun (i : Nat) => [((i : Int), 0), ((i : Int), (cols g : Int) - 1)])

/-- The seed positions of the second border loop. -/
def colSeeds (g : Grid) : List Pos :=
  (List.range (cols g)).flatMap
    (fun (j : Nat) => [(0, (j : Int)), ((rows g : Int) - 1, (j : Int))])

/-- The interior positions visited by the counting loops, in loop
order. -/
def interiorList (g : Grid) : List Pos :=
  (List.range' 1 (rows g - 1 - 1)).flatMap
    (fun (i : Nat) => (List.range' 1 (cols g - 1 - 1)).map
      (fun (j : Nat) => ((i : Int), (j : Int))))

theorem foldl_flatMap {α β σ : Type _} (f : α → List β) (op : σ → β → σ)
    (l : List α) (s : σ) :
    (l.flatMap f).foldl op s = l.foldl (fun s a => (f a).foldl op s) s := by
  induction l generalizing s with
  | nil => rfl
  | cons a l ih => rw [List.flatMap_cons, List.foldl_append, List.foldl_cons, ih]

theorem foldl_grid_mk {α : Type _} (g : Grid) (F : St → α → St)
    (Fv : Finset Pos → α → Finset Pos)
    (hF : ∀ v a, F ⟨g, v⟩ a = ⟨g, Fv v a⟩) :
    ∀ (L : List α) (v : Finset Pos), L.foldl F ⟨g, v⟩ = ⟨g, L.foldl Fv v⟩ := by
  intro L
  induction L with
  | nil => intro v; rfl
  | cons a l ih => intro v; rw [List.foldl_cons, List.foldl_cons, hF, ih]

theorem foldl_grid_mk_pair {α : Type _} (g : Grid) (F : St × Nat → α → St × Nat)
    (Fv : Finset Pos × Nat → α → Finset Pos × Nat)
    (hF : ∀ v c a, F (⟨g, v⟩, c) a = (⟨g, (Fv (v, c) a).1⟩, (Fv (v, c) a).2)) :
    ∀ (L : List α) (v : Finset Pos) (c : Nat),
      L.foldl F (⟨g, v⟩, c) = (⟨g, (L.foldl Fv (v, c)).1⟩, (L.foldl Fv (v, c)).2) := by
  intro L
  induction L with
  | nil => intro v c; rfl
  | cons a l ih =>
    intro v c
    rw [List.foldl_cons, List.foldl_cons, hF]
    rw [ih]

/-- Pure view of the first border loop: fold the seed step over
`rowSeeds`. -/
def borderRowsV (g : Grid) (fuel : Nat) (v : Finset Pos) : Finset Pos :=
  (rowSeeds g).foldl (seedV g fuel) v

/-- Pure view of the second border loop: fold the seed step over
`colSeeds`. -/
def borderColsV (g : Grid) (fuel : Nat) (v : Finset Pos) : Finset Pos :=
  (colSeeds g).foldl (seedV g fuel) v

/-- Pure view of the counting pass: fold the counting step over
`interiorList`. -/
def countPassV (g : Grid) (fuel : Nat) (v : Finset Pos) : Finset Pos × Nat :=
  (interiorList g).foldl (countStepV g fuel) (v, 0)

theorem borderRowsS_mk (g : Grid) (fuel : Nat) (v : Finset Pos) :
    borderRowsS fuel ⟨g, v⟩ = ⟨g, borderRowsV g fuel v⟩ := by
  show (List.range (rows g)).foldl
      (fun (st' : St) (i : Nat) => seedS fuel (seedS fuel st' ((i : Int), 0))
        ((i : Int), (cols g : Int) - 1)) ⟨g, v⟩ = _
  rw [borderRowsV, rowSeeds, foldl_flatMap]
  exact foldl_grid_mk g _ _ (fun v' a => by
    rw [List.foldl_cons, List.foldl_cons, List.foldl_nil, seedS_mk, seedS_mk]) _ v

theorem borderColsS_mk (g : Grid) (fuel : Nat) (v : Finset Pos) :
    borderColsS fuel ⟨g, v⟩ = ⟨g, borderColsV g fuel v⟩ := by
  show (List.range (cols g)).foldl
      (fun (st' : St) (j : Nat) => seedS fuel (seedS fuel st' (0, (j : Int)))
        ((rows g : Int) - 1, (j : Int))) ⟨g, v⟩ = _
  rw [borderColsV, colSeeds, foldl_flatMap]
  exact foldl_grid_mk g _ _ (fun v' a => by
    rw [List.foldl_cons, List.foldl_cons, List.foldl_nil, seedS_mk, seedS_mk]) _ v

theorem countPassS_mk (g : Grid) (fuel : Nat) (v : Finset Pos) :
    countPassS fuel ⟨g, v⟩ = (⟨g, (countPassV g fuel v).1⟩, (countPassV g fuel v).2) := by
  show (List.range' 1 (rows g - 1 - 1)).foldl
      (fun (sc : St × Nat) (i : Nat) => (List.range' 1 (cols g - 1 - 1)).foldl
        (fun (sc' : St × Nat) (j : Nat) => countStepS fuel sc' ((i : Int), (j : Int))) sc)
      (⟨g, v⟩, 0) = _
  rw [countPassV, interiorList, foldl_flatMap]
  refine foldl_grid_mk_pair g _ _ (fun v' c a => ?_) _ v 0
  rw [List.foldl_map]
  induction (List.range' 1 (cols g - 1 - 1)) generalizing v' c with
  | nil => rfl
  | cons b l ih =>
    rw [List.foldl_cons, List.foldl_cons, countStepS_mk]
    rw [ih]

/-- The final `visited` marker of a full run, pure view. -/
def finalStateV (g : Grid) (fuel : Nat) : Finset Pos × Nat :=
  countPassV g fuel (borderColsV g fuel (borderRowsV g fuel ∅))

theorem closedIslandRunFuel_eq (g : Grid) (fuel : Nat) :
    closedIslandRunFuel g fuel = (⟨g, (finalStateV g fuel).1⟩, (finalStateV g fuel).2) := by
  rw [closedIslandRunFuel, borderRowsS_mk, borderColsS_mk, countPassS_mk, finalStateV]

theorem closedIslandFuel_eq (g : Grid) (fuel : Nat) :
    closedIslandFuel g fuel = (finalStateV g fuel).2 := by
  rw [closedIslandFuel, closedIslandRunFuel_eq]

theorem closedIsland_eq (g : Grid) :
    closedIsland g = (finalStateV g (rows g * cols g + 1)).2 := by
  rw [closedIsland, closedIslandRun, closedIslandRunFuel_eq]

/-! ## The border pass marks exactly the border-reachable land -/

/-- `q` is connected through live cells to some live border cell. -/
def BorderReach (g : Grid) (q : Pos) : Prop :=
  ∃ s : Pos, BorderPos g s ∧ s ∈ liveCells g ∧ ReachIn (liveCells g) s q

theorem fuel_ok {g : Grid} {fuel : Nat} (hF : rows g * cols g < fuel)
    (v : Finset Pos) : (liveCells g \ v).card < fuel :=
  lt_of_le_of_lt ((Finset.card_le_card Finset.sdiff_subset).trans (liveCells_card_le g)) hF

/-- Invariant carried through the border pass: the marker is saturated,
everything marked is reachable from a processed seed, and every
processed live seed is marked.  `A` is the set of processed seeds. -/
def BInv (g : Grid) (A : Pos → Prop) (v : Finset Pos) : Prop :=
  Sat g v ∧ (∀ q ∈ v, ∃ s, A s ∧ s ∈ liveCells g ∧ ReachIn (liveCells g) s q) ∧
    (∀ s, A s → s ∈ liveCells g → s ∈ v)

theorem binv_iff {g : Grid} {A A' : Pos → Prop} {v : Finset Pos}
    (h : ∀ s, A s ↔ A' s) (hb : BInv g A v) : BInv g A' v :=
  ⟨hb.1, fun q hq => (hb.2.1 q hq).imp (fun s hs => ⟨(h s).mp hs.1, hs.2⟩),
    fun s hs => hb.2.2 s ((h s).mpr hs)⟩

theorem seedV_binv {g : Grid} {fuel : Nat} (hv : Valid g)
    (hF : rows g * cols g < fuel) {A : Pos → Prop} {v : Finset Pos} {p : Pos}
    (hbox : p ∈ box g) (h : BInv g A v) :
    BInv g (fun s => A s ∨ s = p) (seedV g fuel v p) := by
  rw [seedV]
  by_cases hc : cellZ g p.1 p.2 = 0 ∧ p ∉ v
  · rw [if_pos hc]
    have hplive : p ∈ liveCells g := mem_liveCells.mpr ⟨hbox, by rw [hc.1]; omega⟩
    have hns : ¬ stop g p.1 p.2 v := not_stop_iff.mpr ⟨hplive, hc.2⟩
    have hfu := fuel_ok hF v
    refine ⟨sat_dfsV hfu h.1, ?_, ?_⟩
    · intro q hq
      rcases (mem_dfsV_iff hfu hns q).mp hq with hqv | hreach
      · exact (h.2.1 q hqv).imp (fun s hs => ⟨Or.inl hs.1, hs.2⟩)
      · exact ⟨p, Or.inr rfl, hplive,
          (sat_reach_avoid h.1 hplive hc.2 q).mp hreach⟩
    · intro s hs hslive
      rcases hs with hs | rfl
      · exact subset_dfsV g fuel _ _ _ (h.2.2 s hs hslive)
      · exact mem_dfsV_of_live hplive hfu
  · rw [if_neg hc]
    refine ⟨h.1, fun q hq => (h.2.1 q hq).imp (fun s hs => ⟨Or.inl hs.1, hs.2⟩), ?_⟩
    intro s hs hslive
    rcases hs with hs | rfl
    · exact h.2.2 s hs hslive
    · have hcell : cellZ g s.1 s.2 = 0 := by
        obtain ⟨hbox', hne⟩ := mem_liveCells.mp hslive
        obtain ⟨h0, h1, h2, h3⟩ := mem_box.mp hbox'
        rcases valid_cellZ hv h0 h1 h2 h3 with hz | ho
        · exact hz
        · exact absurd ho hne
      by_cases hsv : s ∈ v
      · exact hsv
      · exact absurd ⟨hcell, hsv⟩ hc

theorem foldl_seedV_binv {g : Grid} {fuel : Nat} (hv : Valid g)
    (hF : rows g * cols g < fuel) :
    ∀ (L : List Pos), (∀ p ∈ L, p ∈ box g) → ∀ {A : Pos → Prop} {v : Finset Pos},
      BInv g A v → BInv g (fun s => A s ∨ s ∈ L) (L.foldl (seedV g fuel) v) := by
  intro L
  induction L with
  | nil =>
    intro _ A v h
    exact binv_iff (fun s => by simp) h
  | cons p L ih =>
    intro hL A v h
    rw [List.foldl_cons]
    have h1 := seedV_binv hv hF (hL p (List.mem_cons_self p L)) h
    have h2 := ih (fun q hq => hL q (List.mem_cons_of_mem p hq)) h1
    refine binv_iff (fun s => ?_) h2
    simp only [List.mem_cons]
    tauto

theorem mem_box' {g : Grid} {a b : Int} :
    (a, b) ∈ box g ↔ 0 ≤ a ∧ a < (rows g : Int) ∧ 0 ≤ b ∧ b < (cols g : Int) :=
  mem_box

theorem rowSeeds_box {g : Grid} (hv : Valid g) : ∀ p ∈ rowSeeds g, p ∈ box g := by
  intro p hp
  rw [rowSeeds, List.mem_flatMap] at hp
  obtain ⟨i, hi, hp⟩ := hp
  rw [List.mem_range] at hi
  have hc := hv.2.1
  simp only [List.mem_cons, List.mem_singleton, List.not_mem_nil, or_false] at hp
  rcases hp with rfl | rfl
  · exact mem_box'.mpr ⟨by omega, by omega, by omega, by omega⟩
  · exact mem_box'.mpr ⟨by omega, by omega, by omega, by omega⟩

theorem colSeeds_box {g : Grid} (hv : Valid g) : ∀ p ∈ colSeeds g, p ∈ box g := by
  intro p hp
  rw [colSeeds, List.mem_flatMap] at hp
  obtain ⟨j, hj, hp⟩ := hp
  rw [List.mem_range] at hj
  have hr := hv.1
  simp only [List.mem_cons, List.mem_singleton, List.not_mem_nil, or_false] at hp
  rcases hp with rfl | rfl
  · exact mem_box'.mpr ⟨by omega, by omega, by omega, by omega⟩
  · exact mem_box'.mpr ⟨by omega, by omega, by omega, by omega⟩

theorem rowSeeds_border {g : Grid} (hv : Valid g) :
    ∀ p ∈ rowSeeds g, BorderPos g p := by
  intro p hp
  refine ⟨rowSeeds_box hv p hp, ?_⟩
  rw [rowSeeds, List.mem_flatMap] at hp
  obtain ⟨i, _, hp⟩ := hp
  simp only [List.mem_cons, List.mem_singleton, List.not_mem_nil, or_false] at hp
  rcases hp with rfl | rfl
  · exact Or.inr (Or.inr (Or.inl rfl))
  · exact Or.inr (Or.inr (Or.inr rfl))

theorem colSeeds_border {g : Grid} (hv : Valid g) :
    ∀ p ∈ colSeeds g, BorderPos g p := by
  intro p hp
  refine ⟨colSeeds_box hv p hp, ?_⟩
  rw [colSeeds, List.mem_flatMap] at hp
  obtain ⟨j, _, hp⟩ := hp
  simp only [List.mem_cons, List.mem_singleton, List.not_mem_nil, or_false] at hp
  rcases hp with rfl | rfl
  · exact Or.inl rfl
  · exact Or.inr (Or.inl rfl)

theorem border_covered {g : Grid} {p : Pos} (hb : BorderPos g p) :
    p ∈ rowSeeds g ∨ p ∈ colSeeds g := by
  obtain ⟨hbox, hside⟩ := hb
  obtain ⟨h0, h1, h2, h3⟩ := mem_box.mp hbox
  rcases p with ⟨a, b⟩
  simp only at h0 h1 h2 h3 hside
  have hba : ((b.toNat : Nat) : Int) = b := by omega
  have haa : ((a.toNat : Nat) : Int) = a := by omega
  rcases hside with ha | ha | hb2 | hb2
  · right
    rw [colSeeds, List.mem_flatMap]
    refine ⟨b.toNat, List.mem_range.mpr (by omega), ?_⟩
    rw [List.mem_cons]
    exact Or.inl (by rw [Prod.mk.injEq]; exact ⟨ha, hba.symm⟩)
  · right
    rw [colSeeds, List.mem_flatMap]
    refine ⟨b.toNat, List.mem_range.mpr (by omega), ?_⟩
    rw [List.mem_cons, List.mem_singleton]
    exact Or.inr (by rw [Prod.mk.injEq]; exact ⟨ha, hba.symm⟩)
  · left
    rw [rowSeeds, List.mem_flatMap]
    refine ⟨a.toNat, List.mem_range.mpr (by omega), ?_⟩
    rw [List.mem_cons]
    exact Or.inl (by rw [Prod.mk.injEq]; exact ⟨haa.symm, hb2⟩)
  · left
    rw [rowSeeds, List.mem_flatMap]
    refine ⟨a.toNat, List.mem_range.mpr (by omega), ?_⟩
    rw [List.mem_cons, List.mem_singleton]
    exact Or.inr (by rw [Prod.mk.injEq]; exact ⟨haa.symm, hb2⟩)

theorem borderV_spec {g : Grid} {fuel : Nat} (hv : Valid g)
    (hF : rows g * cols g < fuel) :
    Sat g (borderColsV g fuel (borderRowsV g fuel ∅)) ∧
    (∀ q ∈ borderColsV g fuel (borderRowsV g fuel ∅), BorderReach g q) ∧
    (∀ s, BorderPos g s → s ∈ liveCells g →
      s ∈ borderColsV g fuel (borderRowsV g fuel ∅)) := by
  have h0 : BInv g (fun _ => False) ∅ :=
    ⟨sat_empty g, fun q hq => absurd hq (Finset.not_mem_empty q), fun s hs => hs.elim⟩
  have h1 := foldl_seedV_binv hv hF (rowSeeds g) (rowSeeds_box hv) h0
  have h2 := foldl_seedV_binv hv hF (colSeeds g) (colSeeds_box hv) h1
  rw [show (rowSeeds g).foldl (seedV g fuel) ∅ = borderRowsV g fuel ∅ from rfl] at h2
  rw [show (colSeeds g).foldl (seedV g fuel) (borderRowsV g fuel ∅) =
    borderColsV g fuel (borderRowsV g fuel ∅) from rfl] at h2
  refine ⟨h2.1, ?_, ?_⟩
  · intro q hq
    obtain ⟨s, hA, hslive, hreach⟩ := h2.2.1 q hq
    have hsborder : BorderPos g s := by
      rcases hA with (hF' | hrow) | hcol
      · exact hF'.elim
      · exact rowSeeds_border hv s hrow
      · exact colSeeds_border hv s hcol
    exact ⟨s, hsborder, hslive, hreach⟩
  · intro s hs hslive
    refine h2.2.2 s ?_ hslive
    rcases border_covered hs with h | h
    · exact Or.inl (Or.inr h)
    · exact Or.inr h

/-! ## Closed cells and components -/

theorem borderReach_not_closed {g : Grid} (hv : Valid g) {q : Pos}
    (hbr : BorderReach g q) : ¬ ClosedCell g q := by
  rintro ⟨hqland, hcl⟩
  obtain ⟨s, hsb, hslive, hreach⟩ := hbr
  rw [liveCells_eq_landCells hv] at hslive hreach
  exact hcl s hslive (reachIn_symm hslive hreach).2 hsb

theorem closed_reach {g : Grid} {p q : Pos} (hp : ClosedCell g p)
    (h : ReachIn (landCells g) p q) : ClosedCell g q := by
  refine ⟨?_, ?_⟩
  · rcases reachIn_mem h with rfl | hq
    · exact hp.1
    · exact hq
  · intro r hrland hreach
    exact hp.2 r hrland (Relation.ReflTransGen.trans h hreach)

theorem mem_componentOf {g : Grid} {p q : Pos} :
    q ∈ componentOf g p ↔ q ∈ landCells g ∧ ReachIn (landCells g) p q := by
  rw [componentOf, Finset.mem_filter]

theorem componentOf_self {g : Grid} {p : Pos} (hp : p ∈ landCells g) :
    p ∈ componentOf g p :=
  mem_componentOf.mpr ⟨hp, Relation.ReflTransGen.refl⟩

theorem componentOf_eq_of_reach {g : Grid} {p q : Pos} (hp : p ∈ landCells g)
    (h : ReachIn (landCells g) p q) : componentOf g q = componentOf g p := by
  apply Finset.ext
  intro r
  rw [mem_componentOf, mem_componentOf]
  constructor
  · rintro ⟨hr, hqr⟩
    exact ⟨hr, Relation.ReflTransGen.trans h hqr⟩
  · rintro ⟨hr, hpr⟩
    exact ⟨hr, Relation.ReflTransGen.trans (reachIn_symm hp h).2 hpr⟩

/-- Interior coordinates in the counting loops' sense:
`1 ≤ i ≤ n-2`, `1 ≤ j ≤ m-2`. -/
def InteriorPos (g : Grid) (p : Pos) : Prop :=
  1 ≤ p.1 ∧ p.1 ≤ (rows g : Int) - 2 ∧ 1 ≤ p.2 ∧ p.2 ≤ (cols g : Int) - 2

theorem interiorPos_mk {g : Grid} {a b : Int} :
    InteriorPos g (a, b) ↔
      1 ≤ a ∧ a ≤ (rows g : Int) - 2 ∧ 1 ≤ b ∧ b ≤ (cols g : Int) - 2 :=
  Iff.rfl

theorem mem_interiorList {g : Grid} {p : Pos} :
    p ∈ interiorList g ↔ InteriorPos g p := by
  rw [interiorList, List.mem_flatMap]
  constructor
  · rintro ⟨i, hi, hp⟩
    rw [List.mem_range'_1] at hi
    rw [List.mem_map] at hp
    obtain ⟨j, hj, rfl⟩ := hp
    rw [List.mem_range'_1] at hj
    exact interiorPos_mk.mpr ⟨by omega, by omega, by omega, by omega⟩
  · intro hp
    rcases p with ⟨a, b⟩
    rw [interiorPos_mk] at hp
    refine ⟨a.toNat, List.mem_range'_1.mpr ⟨by omega, by omega⟩, ?_⟩
    rw [List.mem_map]
    refine ⟨b.toNat, List.mem_range'_1.mpr ⟨by omega, by omega⟩, ?_⟩
    rw [Prod.mk.injEq]
    omega

theorem interiorPos_box {g : Grid} {p : Pos} (h : InteriorPos g p) : p ∈ box g := by
  obtain ⟨h1, h2, h3, h4⟩ := h
  exact mem_box.mpr ⟨by omega, by omega, by omega, by omega⟩

theorem interiorPos_not_border {g : Grid} {p : Pos} (h : InteriorPos g p) :
    ¬ BorderPos g p := by
  obtain ⟨h1, h2, h3, h4⟩ := h
  rintro ⟨-, hside⟩
  omega

theorem closed_interior {g : Grid} {q : Pos} (hc : ClosedCell g q) :
    InteriorPos g q := by
  have hnb : ¬ BorderPos g q := hc.2 q hc.1 Relation.ReflTransGen.refl
  have hbox : q ∈ box g := (mem_landCells.mp hc.1).1
  obtain ⟨h0, h1, h2, h3⟩ := mem_box.mp hbox
  rw [BorderPos, not_and_or] at hnb
  rcases hnb with h | h
  · exact absurd hbox h
  · push_neg at h
    exact ⟨by omega, by omega, by omega, by omega⟩

/-! ## The counting pass -/

/-- Invariant carried through the counting pass: the marker is
saturated; everything marked is border-reachable or closed; all
border-reachable cells are already marked; every processed live
interior cell is marked; and the count equals the number of distinct
closed regions marked so far.  `P` is the set of processed interior
positions. -/
def CInv (g : Grid) (P : Pos → Prop) (sc : Finset Pos × Nat) : Prop :=
  Sat g sc.1 ∧
  (∀ q ∈ sc.1, BorderReach g q ∨ ClosedCell g q) ∧
  (∀ q, BorderReach g q → q ∈ sc.1) ∧
  (∀ p, P p → p ∈ liveCells g → p ∈ sc.1) ∧
  sc.2 = ((sc.1.filter (fun q => ClosedCell g q)).image (fun q => componentOf g q)).card

theorem cinv_iff {g : Grid} {P P' : Pos → Prop} {sc : Finset Pos × Nat}
    (h : ∀ s, P s ↔ P' s) (hc : CInv g P sc) : CInv g P' sc :=
  ⟨hc.1, hc.2.1, hc.2.2.1, fun p hp => hc.2.2.2.1 p ((h p).mpr hp), hc.2.2.2.2⟩

theorem countStepV_cinv {g : Grid} {fuel : Nat} (hv : Valid g)
    (hF : rows g * cols g < fuel) {P : Pos → Prop} {sc : Finset Pos × Nat} {p : Pos}
    (hp : InteriorPos g p) (h : CInv g P sc) :
    CInv g (fun s => P s ∨ s = p) (countStepV g fuel sc p) := by
  obtain ⟨hsat, hdisj, hbr, hproc, hcount⟩ := h
  rw [countStepV]
  by_cases hc : cellZ g p.1 p.2 = 0 ∧ p ∉ sc.1
  · rw [if_pos hc]
    have hbox := interiorPos_box hp
    have hplive : p ∈ liveCells g := mem_liveCells.mpr ⟨hbox, by rw [hc.1]; omega⟩
    have hpland : p ∈ landCells g := mem_landCells.mpr ⟨hbox, hc.1⟩
    have hns : ¬ stop g p.1 p.2 sc.1 := not_stop_iff.mpr ⟨hplive, hc.2⟩
    have hfu := fuel_ok hF sc.1
    have hle := liveCells_eq_landCells hv
    have hpclosed : ClosedCell g p := by
      refine ⟨hpland, ?_⟩
      intro r hrland hreach hrb
      have hbrp : BorderReach g p :=
        ⟨r, hrb, by rw [hle]; exact hrland,
          by rw [hle]; exact (reachIn_symm hpland hreach).2⟩
      exact hc.2 (hbr p hbrp)
    have hViff : ∀ q, q ∈ dfsV g fuel p.1 p.2 sc.1 ↔ q ∈ sc.1 ∨ q ∈ componentOf g p := by
      intro q
      have hmi := mem_dfsV_iff hfu hns q
      rw [Prod.mk.eta] at hmi
      rw [hmi, sat_reach_avoid hsat hplive hc.2, mem_componentOf, hle]
      constructor
      · rintro (hq | hq)
        · exact Or.inl hq
        · refine Or.inr ⟨?_, hq⟩
          rcases reachIn_mem hq with rfl | hq'
          · exact hpland
          · exact hq'
      · rintro (hq | ⟨_, hq⟩)
        · exact Or.inl hq
        · exact Or.inr hq
    have hVeq : dfsV g fuel p.1 p.2 sc.1 = sc.1 ∪ componentOf g p :=
      Finset.ext (fun q => by rw [hViff, Finset.mem_union])
    have hfc : (sc.1 ∪ componentOf g p).filter (fun q => ClosedCell g q) =
        sc.1.filter (fun q => ClosedCell g q) ∪ componentOf g p := by
      rw [Finset.filter_union]
      congr 1
      exact Finset.filter_eq_self.mpr
        (fun q hq => closed_reach hpclosed (mem_componentOf.mp hq).2)
    have himg : (sc.1.filter (fun q => ClosedCell g q) ∪ componentOf g p).image
        (fun q => componentOf g q) =
        insert (componentOf g p)
          ((sc.1.filter (fun q => ClosedCell g q)).image (fun q => componentOf g q)) := by
      rw [Finset.image_union]
      have h1 : (componentOf g p).image (fun q => componentOf g q) = {componentOf g p} := by
        rw [Finset.image_congr (g := fun _ => componentOf g p)
          (fun q hq => componentOf_eq_of_reach hpland (mem_componentOf.mp hq).2)]
        exact Finset.image_const ⟨p, componentOf_self hpland⟩ _
      rw [h1, Finset.union_comm, ← Finset.insert_eq]
    have hnotmem : componentOf g p ∉
        (sc.1.filter (fun q => ClosedCell g q)).image (fun q => componentOf g q) := by
      rw [Finset.mem_image]
      rintro ⟨q, hq, heq⟩
      rw [Finset.mem_filter] at hq
      have hpcomp : p ∈ componentOf g q := heq.symm ▸ componentOf_self hpland
      have hreach : ReachIn (landCells g) q p := (mem_componentOf.mp hpcomp).2
      have hpV : p ∈ sc.1 := sat_reach_subset hsat hq.1 (by rw [hle]; exact hreach)
      exact hc.2 hpV
    refine ⟨sat_dfsV hfu hsat, ?_, ?_, ?_, ?_⟩
    · intro q hq
      rw [show ((dfsV g fuel p.1 p.2 sc.1, sc.2 + 1) : Finset Pos × Nat).1 =
        dfsV g fuel p.1 p.2 sc.1 from rfl, hVeq, Finset.mem_union] at hq
      rcases hq with hq | hq
      · exact hdisj q hq
      · exact Or.inr (closed_reach hpclosed (mem_componentOf.mp hq).2)
    · intro q hbrq
      exact subset_dfsV g fuel _ _ _ (hbr q hbrq)
    · intro s hs hslive
      rcases hs with hs | rfl
      · exact subset_dfsV g fuel _ _ _ (hproc s hs hslive)
      · exact mem_dfsV_of_live hplive hfu
    · show sc.2 + 1 = _
      rw [show ((dfsV g fuel p.1 p.2 sc.1, sc.2 + 1) : Finset Pos × Nat).1 =
        dfsV g fuel p.1 p.2 sc.1 from rfl, hVeq, hfc, himg,
        Finset.card_insert_of_not_mem hnotmem, hcount]
  · rw [if_neg hc]
    refine ⟨hsat, hdisj, hbr, ?_, hcount⟩
    intro s hs hslive
    rcases hs with hs | rfl
    · exact hproc s hs hslive
    · have hcell : cellZ g s.1 s.2 = 0 := by
        obtain ⟨hbox', hne⟩ := mem_liveCells.mp hslive
        obtain ⟨h0, h1, h2, h3⟩ := mem_box.mp hbox'
        rcases valid_cellZ hv h0 h1 h2 h3 with hz | ho
        · exact hz
        · exact absurd ho hne
      by_cases hsv : s ∈ sc.1
      · exact hsv
      · exact absurd ⟨hcell, hsv⟩ hc

theorem foldl_countStepV_cinv {g : Grid} {fuel : Nat} (hv : Valid g)
    (hF : rows g * cols g < fuel) :
    ∀ (L : List Pos), (∀ p ∈ L, InteriorPos g p) →
      ∀ {P : Pos → Prop} {sc : Finset Pos × Nat}, CInv g P sc →
      CInv g (fun s => P s ∨ s ∈ L) (L.foldl (countStepV g fuel) sc) := by
  intro L
  induction L with
  | nil =>
    intro _ P sc h
    exact cinv_iff (fun s => by simp) h
  | cons p L ih =>
    intro hL P sc h
    rw [List.foldl_cons]
    have h1 := countStepV_cinv hv hF (hL p (List.mem_cons_self p L)) h
    have h2 := ih (fun q hq => hL q (List.mem_cons_of_mem p hq)) h1
    refine cinv_iff (fun s => ?_) h2
    simp only [List.mem_cons]
    tauto

/-! ## Main functional-correctness theorem -/

theorem closedIsland_correct {g : Grid} (hv : Valid g) :
    closedIsland g = specClosedIslands g := by
  have hF : rows g * cols g < rows g * cols g + 1 := by omega
  obtain ⟨hsatB, hbrB, hcovB⟩ := borderV_spec hv hF
  have hle := liveCells_eq_landCells hv
  have h0 : CInv g (fun _ => False)
      (borderColsV g (rows g * cols g + 1) (borderRowsV g (rows g * cols g + 1) ∅), 0) := by
    refine ⟨hsatB, fun q hq => Or.inl (hbrB q hq), ?_, fun p hp => hp.elim, ?_⟩
    · rintro q ⟨s, hsb, hslive, hreach⟩
      exact sat_reach_subset hsatB (hcovB s hsb hslive) hreach
    · have he : (borderColsV g (rows g * cols g + 1)
          (borderRowsV g (rows g * cols g + 1) ∅)).filter (fun q => ClosedCell g q) = ∅ := by
        rw [Finset.filter_eq_empty_iff]
        intro q hq
        exact borderReach_not_closed hv (hbrB q hq)
      show (0 : Nat) = _
      rw [show ((borderColsV g (rows g * cols g + 1)
        (borderRowsV g (rows g * cols g + 1) ∅), 0) : Finset Pos × Nat).1 =
        borderColsV g (rows g * cols g + 1) (borderRowsV g (rows g * cols g + 1) ∅)
        from rfl, he]
      simp
  have h1 := foldl_countStepV_cinv hv hF (interiorList g)
    (fun p hp => mem_interiorList.mp hp) h0
  obtain ⟨hsatF, hdisjF, hbrF, hprocF, hcountF⟩ := h1
  rw [closedIsland_eq]
  have hfs : finalStateV g (rows g * cols g + 1) =
      (interiorList g).foldl (countStepV g (rows g * cols g + 1))
        (borderColsV g (rows g * cols g + 1) (borderRowsV g (rows g * cols g + 1) ∅), 0) :=
    rfl
  rw [hfs, hcountF]
  have himg_eq : ((((interiorList g).foldl (countStepV g (rows g * cols g + 1))
        (borderColsV g (rows g * cols g + 1) (borderRowsV g (rows g * cols g + 1) ∅),
          0)).1.filter (fun q => ClosedCell g q)).image (fun q => componentOf g q)) =
      (((landCells g).filter (fun p => ClosedCell g p)).image (fun p => componentOf g p)) := by
    apply Finset.Subset.antisymm
    · apply Finset.image_subset_image
      intro q hq
      rw [Finset.mem_filter] at hq ⊢
      exact ⟨by rw [← hle]; exact hsatF.1 hq.1, hq.2⟩
    · intro x hx
      rw [Finset.mem_image] at hx ⊢
      obtain ⟨q, hq, rfl⟩ := hx
      rw [Finset.mem_filter] at hq
      refine ⟨q, ?_, rfl⟩
      rw [Finset.mem_filter]
      refine ⟨?_, hq.2⟩
      have hint := closed_interior hq.2
      exact hprocF q (Or.inr (mem_interiorList.mpr hint)) (by rw [hle]; exact hq.1)
  rw [himg_eq, specClosedIslands]

/-! ## Fuel congruence: any fuel beyond the cell count gives the same run -/

theorem dfsV_fuel_eq {g : Grid} {F F' : Nat} (hF : rows g * cols g < F)
    (hF' : rows g * cols g < F') (i j : Int) (v : Finset Pos) :
    dfsV g F i j v = dfsV g F' i j v := by
  rcases le_total F F' with h | h
  · exact dfsV_fuel_ge g i j v (fuel_ok hF v) h
  · exact (dfsV_fuel_ge g i j v (fuel_ok hF' v) h).symm

theorem seedV_fuel_eq {g : Grid} {F F' : Nat} (hF : rows g * cols g < F)
    (hF' : rows g * cols g < F') : seedV g F = seedV g F' := by
  funext v p
  rw [seedV, seedV]
  by_cases h : cellZ g p.1 p.2 = 0 ∧ p ∉ v
  · rw [if_pos h, if_pos h, dfsV_fuel_eq hF hF']
  · rw [if_neg h, if_neg h]

theorem countStepV_fuel_eq {g : Grid} {F F' : Nat} (hF : rows g * cols g < F)
    (hF' : rows g * cols g < F') : countStepV g F = countStepV g F' := by
  funext sc p
  rw [countStepV, countStepV]
  by_cases h : cellZ g p.1 p.2 = 0 ∧ p ∉ sc.1
  · rw [if_pos h, if_pos h, dfsV_fuel_eq hF hF']
  · rw [if_neg h, if_neg h]

theorem closedIslandFuel_adequate {g : Grid} {F : Nat}
    (hF : rows g * cols g + 1 ≤ F) : closedIslandFuel g F = closedIsland g := by
  have h1 : rows g * cols g < F := by omega
  have h2 : rows g * cols g < rows g * cols g + 1 := by omega
  rw [closedIslandFuel_eq, closedIsland_eq]
  rw [finalStateV, finalStateV, countPassV, countPassV, borderColsV, borderColsV,
    borderRowsV, borderRowsV, seedV_fuel_eq h1 h2, countStepV_fuel_eq h1 h2]

/-! ## Small grids have an empty counting pass -/

theorem flatMap_empty {α β : Type _} (l : List α) :
    (l.flatMap (fun _ => ([] : List β))) = [] := by
  induction l with
  | nil => rfl
  | cons a l ih => rw [List.flatMap_cons, ih]; rfl

theorem interiorList_nil {g : Grid} (h : rows g ≤ 2 ∨ cols g ≤ 2) :
    interiorList g = [] := by
  rcases h with h | h
  · rw [interiorList, show rows g - 1 - 1 = 0 by omega]
    rfl
  · rw [interiorList, show cols g - 1 - 1 = 0 by omega]
    show (List.range' 1 (rows g - 1 - 1)).flatMap (fun _ => []) = []
    exact flatMap_empty _

theorem closedIsland_small {g : Grid} (h : rows g ≤ 2 ∨ cols g ≤ 2) :
    closedIsland g = 0 := by
  rw [closedIsland_eq]
  show (countPassV g (rows g * cols g + 1) _).2 = 0
  rw [countPassV, interiorList_nil h, List.foldl_nil]

/-! ## The marker only ever holds live cells -/

theorem seedV_subset (g : Grid) (fuel : Nat) (v : Finset Pos) (p : Pos) :
    seedV g fuel v p ⊆ v ∪ liveCells g := by
  rw [seedV]
  split
  · exact dfsV_subset g fuel _ _ _
  · exact Finset.subset_union_left

theorem foldl_seedV_subset (g : Grid) (fuel : Nat) :
    ∀ (L : List Pos) (v : Finset Pos),
      L.foldl (seedV g fuel) v ⊆ v ∪ liveCells g := by
  intro L
  induction L with
  | nil => intro v; exact Finset.subset_union_left
  | cons p L ih =>
    intro v
    rw [List.foldl_cons]
    calc L.foldl (seedV g fuel) (seedV g fuel v p)
        ⊆ seedV g fuel v p ∪ liveCells g := ih _
      _ ⊆ (v ∪ liveCells g) ∪ liveCells g :=
          Finset.union_subset_union_left (seedV_subset g fuel v p)
      _ = v ∪ liveCells g := by rw [Finset.union_assoc, Finset.union_self]

theorem countStepV_subset (g : Grid) (fuel : Nat) (sc : Finset Pos × Nat) (p : Pos) :
    (countStepV g fuel sc p).1 ⊆ sc.1 ∪ liveCells g := by
  rw [countStepV]
  split
  · exact dfsV_subset g fuel _ _ _
  · exact Finset.subset_union_left

theorem foldl_countStepV_subset (g : Grid) (fuel : Nat) :
    ∀ (L : List Pos) (sc : Finset Pos × Nat),
      (L.foldl (countStepV g fuel) sc).1 ⊆ sc.1 ∪ liveCells g := by
  intro L
  induction L with
  | nil => intro sc; exact Finset.subset_union_left
  | cons p L ih =>
    intro sc
    rw [List.foldl_cons]
    calc (L.foldl (countStepV g fuel) (countStepV g fuel sc p)).1
        ⊆ (countStepV g fuel sc p).1 ∪ liveCells g := ih _
      _ ⊆ (sc.1 ∪ liveCells g) ∪ liveCells g :=
          Finset.union_subset_union_left (countStepV_subset g fuel sc p)
      _ = sc.1 ∪ liveCells g := by rw [Finset.union_assoc, Finset.union_self]

theorem finalVisited_subset_live (g : Grid) (fuel : Nat) :
    (finalStateV g fuel).1 ⊆ liveCells g := by
  rw [finalStateV, countPassV]
  refine (foldl_countStepV_subset g fuel _ _).trans ?_
  show borderColsV g fuel (borderRowsV g fuel ∅) ∪ liveCells g ⊆ liveCells g
  rw [borderColsV, borderRowsV]
  refine Finset.union_subset ?_ (Finset.Subset.refl _)
  refine (foldl_seedV_subset g fuel _ _).trans ?_
  refine Finset.union_subset ?_ (Finset.Subset.refl _)
  refine (foldl_seedV_subset g fuel _ _).trans ?_
  rw [Finset.empty_union]

/-! ## All-land grids: every cell connects to the border -/

theorem allzero_cellZ {g : Grid} (hv : Valid g)
    (hz : ∀ row ∈ g, ∀ c ∈ row, c = 0) {i j : Int} (h0 : 0 ≤ i)
    (h1 : i < (rows g : Int)) (h2 : 0 ≤ j) (h3 : j < (cols g : Int)) :
    cellZ g i j = 0 := by
  obtain ⟨hr, hc, hlen, _⟩ := hv
  have hi : i.toNat < g.length := by
    have : (rows g : Int) = (g.length : Int) := rfl
    omega
  have hrow_eq : g.getD i.toNat [] = g[i.toNat] := by
    rw [List.getD_eq_getElem?_getD, List.getElem?_eq_getElem hi, Option.getD_some]
  have hrowmem : g.getD i.toNat [] ∈ g := by
    rw [hrow_eq]; exact List.getElem_mem hi
  have hrlen : (g.getD i.toNat []).length = cols g := hlen _ hrowmem
  have hj : j.toNat < (g.getD i.toNat []).length := by
    rw [hrlen]; omega
  have hcell_eq : (g.getD i.toNat []).getD j.toNat 1 = (g.getD i.toNat [])[j.toNat] := by
    rw [List.getD_eq_getElem?_getD, List.getElem?_eq_getElem hj, Option.getD_some]
  have hcellmem : (g.getD i.toNat []).getD j.toNat 1 ∈ g.getD i.toNat [] := by
    rw [hcell_eq]; exact List.getElem_mem hj
  exact hz _ hrowmem _ hcellmem

theorem allzero_reach_top {g : Grid} (hv : Valid g)
    (hz : ∀ row ∈ g, ∀ c ∈ row, c = 0) :
    ∀ (k : Nat) (b : Int), ((k : Int), b) ∈ box g →
      ReachIn (landCells g) ((k : Int), b) (0, b) := by
  intro k
  induction k with
  | zero => intro b _; exact Relation.ReflTransGen.refl
  | succ n ih =>
    intro b hbox
    obtain ⟨h0, h1, h2, h3⟩ := mem_box'.mp hbox
    have hbox' : ((n : Int), b) ∈ box g := mem_box'.mpr ⟨by omega, by omega, h2, h3⟩
    have hland : ((n : Int), b) ∈ landCells g :=
      mem_landCells.mpr ⟨hbox', allzero_cellZ hv hz (by omega) (by omega) h2 h3⟩
    refine Relation.ReflTransGen.head ⟨?_, hland⟩ (ih b hbox')
    have : ((n : Int), b) = (((n + 1 : Nat) : Int) - 1, b) := by
      rw [Prod.mk.injEq]; omega
    rw [this]
    exact adjP_down _ _

theorem closedIsland_allzero {g : Grid} (hv : Valid g)
    (hz : ∀ row ∈ g, ∀ c ∈ row, c = 0) : closedIsland g = 0 := by
  rw [closedIsland_correct hv, specClosedIslands]
  have hfe : (landCells g).filter (fun p => ClosedCell g p) = ∅ := by
    rw [Finset.filter_eq_empty_iff]
    intro p hp hclosed
    obtain ⟨hbox, hcell⟩ := mem_landCells.mp hp
    obtain ⟨h0, h1, h2, h3⟩ := mem_box.mp hbox
    have hn : 1 ≤ rows g := hv.1
    have htopland : ((0 : Int), p.2) ∈ landCells g :=
      mem_landCells.mpr ⟨mem_box'.mpr ⟨le_refl 0, by omega, h2, h3⟩,
        allzero_cellZ hv hz (le_refl 0) (by omega) h2 h3⟩
    have hreach : ReachIn (landCells g) p (0, p.2) := by
      have hpmk : p = ((p.1.toNat : Int), p.2) := by rw [Prod.mk.injEq]; omega
      rw [hpmk]
      exact allzero_reach_top hv hz p.1.toNat p.2 (by rw [← hpmk]; exact hbox)
    have hborder : BorderPos g (0, p.2) :=
      ⟨mem_box'.mpr ⟨le_refl 0, by omega, h2, h3⟩, Or.inl rfl⟩
    exact hclosed.2 (0, p.2) htopland hreach hborder
  rw [hfe, Finset.image_empty, Finset.card_empty]

/-! ## All-water grids have no land at all -/

theorem allone_landCells {g : Grid} (hv : Valid g)
    (ho : ∀ row ∈ g, ∀ c ∈ row, c = 1) : landCells g = ∅ := by
  rw [landCells, Finset.filter_eq_empty_iff]
  intro p hp hcell
  obtain ⟨h0, h1, h2, h3⟩ := mem_box.mp hp
  obtain ⟨hr, hc, hlen, _⟩ := hv
  have hi : p.1.toNat < g.length := by
    have : (rows g : Int) = (g.length : Int) := rfl
    omega
  have hrow_eq : g.getD p.1.toNat [] = g[p.1.toNat] := by
    rw [List.getD_eq_getElem?_getD, List.getElem?_eq_getElem hi, Option.getD_some]
  have hrowmem : g.getD p.1.toNat [] ∈ g := by
    rw [hrow_eq]; exact List.getElem_mem hi
  have hrlen : (g.getD p.1.toNat []).length = cols g := hlen _ hrowmem
  have hj : p.2.toNat < (g.getD p.1.toNat []).length := by
    rw [hrlen]; omega
  have hcell_eq : (g.getD p.1.toNat []).getD p.2.toNat 1 =
      (g.getD p.1.toNat [])[p.2.toNat] := by
    rw [List.getD_eq_getElem?_getD, List.getElem?_eq_getElem hj, Option.getD_some]
  have hcellmem : (g.getD p.1.toNat []).getD p.2.toNat 1 ∈ g.getD p.1.toNat [] := by
    rw [hcell_eq]; exact List.getElem_mem hj
  have := ho _ hrowmem _ hcellmem
  rw [cellZ] at hcell
  omega

theorem closedIsland_allone {g : Grid} (hv : Valid g)
    (ho : ∀ row ∈ g, ∀ c ∈ row, c = 1) : closedIsland g = 0 := by
  rw [closedIsland_correct hv, specClosedIslands, allone_landCells hv ho]
  rfl

/-! ## Bound by the interior land cells -/

/-- The interior land cells: `1 ≤ i ≤ n-2`, `1 ≤ j ≤ m-2`,
`grid[i][j] = 0`. -/
def interiorLandCells (g : Grid) : Finset Pos :=
  (Finset.Ico (1 : Int) ((rows g : Int) - 1) ×ˢ
    Finset.Ico (1 : Int) ((cols g : Int) - 1)).filter
    (fun p => cellZ g p.1 p.2 = 0)

theorem closedIsland_le_interiorLand {g : Grid} (hv : Valid g) :
    closedIsland g ≤ (interiorLandCells g).card := by
  rw [closedIsland_correct hv, specClosedIslands]
  refine Finset.card_image_le.trans (Finset.card_le_card ?_)
  intro p hp
  rw [Finset.mem_filter] at hp
  obtain ⟨h1, h2, h3, h4⟩ := closed_interior hp.2
  rw [interiorLandCells, Finset.mem_filter, Finset.mem_product,
    Finset.mem_Ico, Finset.mem_Ico]
  exact ⟨⟨⟨h1, by omega⟩, h3, by omega⟩, (mem_landCells.mp hp.1).2⟩

/-! ## The grid is never modified -/

theorem closedIslandRun_grid (g : Grid) : (closedIslandRun g).1.grid = g := by
  rw [closedIslandRun, closedIslandRunFuel_eq]

/-! ## The marker never holds a water cell -/

theorem dfsV_land_only {g : Grid} (hv : Valid g) (fuel : Nat) (i j : Int)
    (v : Finset Pos) (hval : ∀ p ∈ v, p ∈ box g ∧ cellZ g p.1 p.2 = 0) :
    ∀ p ∈ dfsV g fuel i j v, p ∈ box g ∧ cellZ g p.1 p.2 = 0 := by
  intro p hp
  rcases Finset.mem_union.mp (dfsV_subset g fuel i j v hp) with h | h
  · exact hval p h
  · obtain ⟨hbox, hne⟩ := mem_liveCells.mp h
    obtain ⟨h0, h1, h2, h3⟩ := mem_box.mp hbox
    rcases valid_cellZ hv h0 h1 h2 h3 with hz | ho
    · exact ⟨hbox, hz⟩
    · exact absurd ho hne

theorem dfsV_water_root {g : Grid} (fuel : Nat) (i j : Int) (v : Finset Pos)
    (h : cellZ g i j = 1) : dfsV g fuel i j v = v :=
  dfsV_stop (Or.inr (Or.inr (Or.inr (Or.inr (Or.inl h))))) fuel

theorem finalVisited_land {g : Grid} (hv : Valid g) :
    ∀ p ∈ (closedIslandRun g).1.visited, p ∈ box g ∧ cellZ g p.1 p.2 = 0 := by
  intro p hp
  rw [closedIslandRun, closedIslandRunFuel_eq] at hp
  have hlive : p ∈ liveCells g :=
    finalVisited_subset_live g (rows g * cols g + 1) hp
  obtain ⟨hbox, hne⟩ := mem_liveCells.mp hlive
  obtain ⟨h0, h1, h2, h3⟩ := mem_box.mp hbox
  rcases valid_cellZ hv h0 h1 h2 h3 with hz | ho
  · exact ⟨hbox, hz⟩
  · exact absurd ho hne

/-! ## Concrete grids from the specification's scenarios -/

/-- Scenario 2 of the spec. -/
def exampleGrid2 : Grid := [[0,0,1,0,0],[0,1,0,1,0],[0,1,1,1,0],[0,0,0,0,0]]

/-- Scenario 3 of the spec. -/
def exampleGrid5 : Grid :=
  [[1,1,1,1,1,1,1,0],[1,0,0,0,0,1,1,0],[1,0,1,0,1,1,1,0],[1,0,0,0,0,1,0,1],
    [1,1,1,1,1,1,1,0]]

/-- Scenario 4 of the spec. -/
def singleCellGrid : Grid := [[0]]

/-- Scenario 5 of the spec. -/
def allZeroGrid3 : Grid := [[0,0,0],[0,0,0],[0,0,0]]

/-- A one-cell all-water grid. -/
def allOneGrid : Grid := [[1]]

/-- A 2-row grid, used to exercise the empty counting pass. -/
def thinGrid : Grid := [[0,1,0],[0,0,0]]

/-! ## The claims -/

/-- C1: for every grid with `n ≥ 1` rows and `m ≥ 1` columns, all rows
of length `m`, and every cell valued 0 or 1, `closedIsland` returns the
number of maximal 4-directionally-connected regions of land cells
(value 0) that contain no border cell and have no path through land to
a border cell. -/
theorem claim1_closedIsland_counts_closed_regions :
    ∀ g : Grid, Valid g → closedIsland g = specClosedIslands g :=
  fun _ hv => closedIsland_correct hv

theorem claim1_witness :
    Valid exampleGrid5 ∧ closedIsland exampleGrid5 = specClosedIslands exampleGrid5 :=
  ⟨by decide, claim1_closedIsland_counts_closed_regions exampleGrid5 (by decide)⟩

/-- C2 counterexample: on the grid
`[[0,0,1,0,0],[0,1,0,1,0],[0,1,1,1,0],[0,0,0,0,0]]` the code does NOT
return 0 (cell `(1,2)` is land walled in by water on all four sides,
forming one closed island). -/
theorem claim2_counterexample : ¬ (closedIsland exampleGrid2 = 0) := by decide

/-- C2 (amended): on the grid
`[[0,0,1,0,0],[0,1,0,1,0],[0,1,1,1,0],[0,0,0,0,0]]`, `closedIsland`
returns 1. -/
theorem claim2_closedIsland_example2_eq_one : closedIsland exampleGrid2 = 1 := by
  decide

/-- C3: every valid all-land grid yields 0; in particular the
single-cell grid `[[0]]` and the 3×3 all-zero grid yield 0. -/
theorem claim3_allLand_zero :
    (∀ g : Grid, Valid g → (∀ row ∈ g, ∀ c ∈ row, c = 0) → closedIsland g = 0) ∧
    closedIsland singleCellGrid = 0 ∧ closedIsland allZeroGrid3 = 0 :=
  ⟨fun _ hv hz => closedIsland_allzero hv hz, by decide, by decide⟩

theorem claim3_witness :
    Valid allZeroGrid3 ∧ (∀ row ∈ allZeroGrid3, ∀ c ∈ row, c = 0) ∧
      closedIsland allZeroGrid3 = 0 :=
  ⟨by decide, by decide, claim3_allLand_zero.1 allZeroGrid3 (by decide) (by decide)⟩

/-- C4: every valid all-water grid yields 0. -/
theorem claim4_allWater_zero :
    ∀ g : Grid, Valid g → (∀ row ∈ g, ∀ c ∈ row, c = 1) → closedIsland g = 0 :=
  fun _ hv ho => closedIsland_allone hv ho

theorem claim4_witness :
    Valid allOneGrid ∧ (∀ row ∈ allOneGrid, ∀ c ∈ row, c = 1) ∧
      closedIsland allOneGrid = 0 :=
  ⟨by decide, by decide, claim4_allWater_zero allOneGrid (by decide) (by decide)⟩

/-- C5: on the grid
`[[1,1,1,1,1,1,1,0],[1,0,0,0,0,1,1,0],[1,0,1,0,1,1,1,0],[1,0,0,0,0,1,0,1],[1,1,1,1,1,1,1,0]]`,
`closedIsland` returns 2. -/
theorem claim5_example5_eq_two : closedIsland exampleGrid5 = 2 := by decide

/-- C6: for every valid grid the result is non-negative and at most the
number of interior land cells (`1 ≤ i ≤ n-2`, `1 ≤ j ≤ m-2`,
`grid[i][j] = 0`). -/
theorem claim6_le_interior_land :
    ∀ g : Grid, Valid g →
      0 ≤ closedIsland g ∧ closedIsland g ≤ (interiorLandCells g).card :=
  fun _ hv => ⟨Nat.zero_le _, closedIsland_le_interiorLand hv⟩

theorem claim6_witness :
    Valid exampleGrid5 ∧ 0 ≤ closedIsland exampleGrid5 ∧
      closedIsland exampleGrid5 ≤ (interiorLandCells exampleGrid5).card := by
  refine ⟨by decide, ?_⟩
  exact claim6_le_interior_land exampleGrid5 (by decide)

/-- C7: the run leaves the input grid unchanged (the final state's grid
equals the input), so running the routine again on the grid that comes
out of a run returns the same count. -/
theorem claim7_grid_unchanged :
    ∀ g : Grid, (closedIslandRun g).1.grid = g ∧
      closedIsland ((closedIslandRun g).1.grid) = closedIsland g ∧
      (closedIslandRun ((closedIslandRun g).1.grid)).2 = (closedIslandRun g).2 := by
  intro g
  have h := closedIslandRun_grid g
  exact ⟨h, by rw [h], by rw [h]⟩

/-- C8: the recursive flood fill terminates: the fuelled recursion is
stable at fuel `rows·cols + 1` (one more than the number of cells), so
any larger recursion budget returns the same result as `closedIsland`. -/
theorem claim8_fuel_adequate :
    ∀ (g : Grid) (fuel : Nat), rows g * cols g + 1 ≤ fuel →
      closedIslandFuel g fuel = closedIsland g :=
  fun _ _ h => closedIslandFuel_adequate h

theorem claim8_witness :
    rows singleCellGrid * cols singleCellGrid + 1 ≤ 5 ∧
      closedIslandFuel singleCellGrid 5 = closedIsland singleCellGrid :=
  ⟨by decide, claim8_fuel_adequate singleCellGrid 5 (by decide)⟩

/-- C9: a grid with at most 2 rows or at most 2 columns yields 0
regardless of the cell values, because the counting loops run over the
empty strict interior. -/
theorem claim9_thin_grid_zero :
    ∀ g : Grid, rows g ≤ 2 ∨ cols g ≤ 2 → closedIsland g = 0 :=
  fun _ h => closedIsland_small h

theorem claim9_witness :
    (rows thinGrid ≤ 2 ∨ cols thinGrid ≤ 2) ∧ closedIsland thinGrid = 0 :=
  ⟨by decide, claim9_thin_grid_zero thinGrid (by decide)⟩

/-- C10: on a valid grid the `visited` marker only ever holds in-bounds
land cells: the flood fill preserves this invariant from any marker
satisfying it, a flood fill rooted at a water cell marks nothing, and
the final marker of a full run holds only land cells. -/
theorem claim10_visited_only_land :
    ∀ g : Grid, Valid g →
      (∀ (fuel : Nat) (i j : Int) (v : Finset Pos),
        (∀ p ∈ v, p ∈ box g ∧ cellZ g p.1 p.2 = 0) →
        ∀ p ∈ dfsV g fuel i j v, p ∈ box g ∧ cellZ g p.1 p.2 = 0) ∧
      (∀ (fuel : Nat) (i j : Int) (v : Finset Pos),
        cellZ g i j = 1 → dfsV g fuel i j v = v) ∧
      (∀ p ∈ (closedIslandRun g).1.visited, p ∈ box g ∧ cellZ g p.1 p.2 = 0) :=
  fun _ hv => ⟨fun fuel i j v hval => dfsV_land_only hv fuel i j v hval,
    fun fuel i j v h => dfsV_water_root fuel i j v h, finalVisited_land hv⟩

theorem claim10_witness :
    Valid exampleGrid5 ∧ dfsV exampleGrid5 3 0 0 ∅ = ∅ :=
  ⟨by decide, (claim10_visited_only_land exampleGrid5 (by decide)).2.1 3 0 0 ∅
    (by decide)⟩

end ClosedIsland
